import Mathlib

/-!
Verification of a minimal self-describing binary serialization format
(a single Rust source file exposing encode_field and decode_field).

The embedding models Rust values as follows:
* Rust String and Vec of u8 become List Nat (byte sequences; a Rust String
  additionally carries the invariant that its bytes are valid UTF-8, which
  appears here as a well-formedness hypothesis).
* i32 becomes Int together with the two-complement range invariant.
* f32 becomes its 32-bit pattern as a Nat (the codec never interprets the
  bits, it only moves them).
* The decoder is modelled with explicit fuel; fuel exhaustion is the
  distinguished value none and is proved unreachable for sufficient fuel,
  which renders termination of the Rust recursion as an object-level fact.
* Rust panics (copy_from_slice with mismatched lengths, indexing an empty
  vector, slicing out of range) are a distinguished outcome DOut.panic,
  separate from the Option None return, spelled DOut.fail here.
-/

namespace CustomCodec

mutual

/-- The Value enum of the source: a tagged union over exactly six variants. -/
inductive Value where
  | Int32 (i : Int)
  | Float32 (bits : Nat)
  | Bool (b : Bool)
  | String (s : List Nat)
  | Bytes (bs : List Nat)
  | Message (fields : List Field)

/-- The Field struct of the source: a key (bytes of a Rust String) plus a Value. -/
inductive Field where
  | mk (key : List Nat) (value : Value)

end

/-- Big-endian 4-byte encoding of a Nat, as written by u32 to_be_bytes after
the as-u32 cast (the cast's truncation modulo 2^32 is inherent in taking the
four low-order bytes). -/
def be4 (n : Nat) : List Nat :=
  [n / 16777216 % 256, n / 65536 % 256, n / 256 % 256, n % 256]

/-- Big-endian value of a 4-byte list, as read by u32 from_be_bytes. -/
def beVal : List Nat → Nat
  | [a, b, c, d] => ((a * 256 + b) * 256 + c) * 256 + d
  | _ => 0

/-- A UTF-8 continuation byte (0x80 to 0xBF). -/
def contByte (c : Nat) : Bool := 128 ≤ c && c ≤ 191

/-- Modelled from the Rust standard library: the UTF-8 validation performed by
String.from_utf8, following the standard table of well-formed byte sequences
(RFC 3629). Returns true exactly on valid UTF-8 byte sequences. -/
def validUtf8 : List Nat → Bool
  | [] => true
  | b :: rest =>
    if b ≤ 127 then validUtf8 rest
    else
      match rest with
      | [] => false
      | c1 :: r1 =>
        if 194 ≤ b && b ≤ 223 then contByte c1 && validUtf8 r1
        else
          match r1 with
          | [] => false
          | c2 :: r2 =>
            if b = 224 then (160 ≤ c1 && c1 ≤ 191) && contByte c2 && validUtf8 r2
            else if (225 ≤ b && b ≤ 236) || b = 238 || b = 239 then
              contByte c1 && contByte c2 && validUtf8 r2
            else if b = 237 then (128 ≤ c1 && c1 ≤ 159) && contByte c2 && validUtf8 r2
            else
              match r2 with
              | [] => false
              | c3 :: r3 =>
                if b = 240 then
                  (144 ≤ c1 && c1 ≤ 191) && contByte c2 && contByte c3 && validUtf8 r3
                else if 241 ≤ b && b ≤ 243 then
                  contByte c1 && contByte c2 && contByte c3 && validUtf8 r3
                else if b = 244 then
                  (128 ≤ c1 && c1 ≤ 143) && contByte c2 && contByte c3 && validUtf8 r3
                else false

/-- Two-complement 32-bit pattern of an Int, as produced by i32 to_be_bytes
(read back as an unsigned number). -/
def toTwos (i : Int) : Nat := (i % 4294967296).toNat

/-- Signed value of a 32-bit pattern, as read by i32 from_be_bytes. -/
def fromTwos (n : Nat) : Int :=
  if n < 2147483648 then (n : Int) else (n : Int) - 4294967296

/-- The type_code byte the encoder writes for each Value variant
(the first match in encode_field). -/
def typeCode : Value → Nat
  | .Int32 _ => 1
  | .Float32 _ => 2
  | .Bool _ => 3
  | .String _ => 4
  | .Bytes _ => 5
  | .Message _ => 6

mutual

/-- The encoder of the source: type_code byte, 4-byte big-endian key length,
key bytes, then the value branch which writes a 4-byte big-endian payload
length followed by the payload bytes. -/
def encode_field : Field → List Nat
  | .mk key v => typeCode v :: (be4 key.length ++ (key ++ encodeValue v))

/-- The value branch of encode_field: each arm writes the 4-byte big-endian
val_len then the payload, mirroring the Rust match arm for arm (Int32 and
Float32 write the literal length 4, Bool the literal length 1). -/
def encodeValue : Value → List Nat
  | .Int32 i => be4 4 ++ be4 (toTwos i)
  | .Float32 bits => be4 4 ++ be4 bits
  | .Bool b => be4 1 ++ [if b then 1 else 0]
  | .String s => be4 s.length ++ s
  | .Bytes bs => be4 bs.length ++ bs
  | .Message fs => be4 (encodeFields fs).length ++ encodeFields fs

/-- The inner loop of the Message arm of encode_field: concatenation of the
encodings of the children in list order. -/
def encodeFields : List Field → List Nat
  | [] => []
  | f :: fs => encode_field f ++ encodeFields fs

end

/-- The payload bytes each Value variant contributes (the bytes following the
4-byte val_len in the corresponding arm of encodeValue). -/
def payloadV : Value → List Nat
  | .Int32 i => be4 (toTwos i)
  | .Float32 bits => be4 bits
  | .Bool b => [if b then 1 else 0]
  | .String s => s
  | .Bytes bs => bs
  | .Message fs => encodeFields fs

/-- Observable outcome of the Rust decode_field: a parsed Field, a None
return, or a panic. -/
inductive DOut where
  | ok (f : Field)
  | fail
  | panic

/-- Observable outcome of the Message decoding loop inside decode_field:
the collected child fields, or a panic raised while running it. -/
inductive LOut where
  | fields (fs : List Field)
  | panic

mutual

/-- The decoder of the source, with explicit fuel (none means the fuel ran
out; sufficient fuel is proved to exist below). Reads mirror the sequence of
Cursor read_exact calls: type_code, key_len, key (UTF-8 checked), val_len,
val bytes, then the match on the type code. A val_len other than 4 for codes
1 and 2 panics (copy_from_slice), an empty payload for code 3 panics
(indexing), an unknown code returns None. -/
def decodeFuel : Nat → List Nat → Option DOut
  | 0, _ => none
  | fuel + 1, data =>
    match data with
    | [] => some .fail
    | t :: r0 =>
      if 4 ≤ r0.length then
        let keyLen := beVal (r0.take 4)
        let r1 := r0.drop 4
        if keyLen ≤ r1.length then
          let keyBytes := r1.take keyLen
          let r2 := r1.drop keyLen
          if validUtf8 keyBytes then
            if 4 ≤ r2.length then
              let valLen := beVal (r2.take 4)
              let r3 := r2.drop 4
              if valLen ≤ r3.length then
                let valBytes := r3.take valLen
                if t = 1 then
                  if valBytes.length = 4 then
                    some (.ok (.mk keyBytes (.Int32 (fromTwos (beVal valBytes)))))
                  else some .panic
                else if t = 2 then
                  if valBytes.length = 4 then
                    some (.ok (.mk keyBytes (.Float32 (beVal valBytes))))
                  else some .panic
                else if t = 3 then
                  match valBytes with
                  | [] => some .panic
                  | b :: _ => some (.ok (.mk keyBytes (.Bool (b != 0))))
                else if t = 4 then
                  if validUtf8 valBytes then
                    some (.ok (.mk keyBytes (.String valBytes)))
                  else some .fail
                else if t = 5 then
                  some (.ok (.mk keyBytes (.Bytes valBytes)))
                else if t = 6 then
                  match decodeLoopFuel fuel valBytes with
                  | none => none
                  | some .panic => some .panic
                  | some (.fields fs) => some (.ok (.mk keyBytes (.Message fs)))
                else some .fail
              else some .fail
            else some .fail
          else some .fail
        else some .fail
      else some .fail

/-- The while loop of the Message arm: decode one field from the front of the
slice, re-encode it to measure how many bytes to advance, and repeat until the
slice is empty; a sub-decode returning None breaks out of the loop, a
sub-decode panic propagates, and advancing past the end of the slice panics
(Rust range slicing). -/
def decodeLoopFuel : Nat → List Nat → Option LOut
  | 0, _ => none
  | fuel + 1, slice =>
    match slice with
    | [] => some (.fields [])
    | _ :: _ =>
      match decodeFuel fuel slice with
      | none => none
      | some .fail => some (.fields [])
      | some .panic => some .panic
      | some (.ok f) =>
        if (encode_field f).length ≤ slice.length then
          match decodeLoopFuel fuel (slice.drop (encode_field f).length) with
          | none => none
          | some .panic => some .panic
          | some (.fields fs) => some (.fields (f :: fs))
        else some .panic

end

/-- The decoder at its canonical fuel (one more than the input length, proved
sufficient below): the observable outcome of the Rust decode_field. -/
def decode_field (data : List Nat) : DOut :=
  (decodeFuel (data.length + 1) data).getD .fail

mutual

/-- Well-formedness of a Field as a Rust value: the key is the byte sequence
of a Rust String (valid UTF-8) of u32-representable length, and the value is
well-formed. -/
def Field.wf : Field → Bool
  | .mk key v => validUtf8 key && key.length < 4294967296 && Value.wf v

/-- Well-formedness of a Value as a Rust value: Int32 in the i32 range,
Float32 a 32-bit pattern, String valid UTF-8, all byte-sequence and payload
lengths u32-representable, children of a Message well-formed. -/
def Value.wf : Value → Bool
  | .Int32 i => -2147483648 ≤ i && i < 2147483648
  | .Float32 bits => bits < 4294967296
  | .Bool _ => true
  | .String s => validUtf8 s && s.length < 4294967296
  | .Bytes bs => bs.all (· < 256) && bs.length < 4294967296
  | .Message fs => wfFields fs && (encodeFields fs).length < 4294967296

/-- Well-formedness of every Field in a list. -/
def wfFields : List Field → Bool
  | [] => true
  | f :: fs => Field.wf f && wfFields fs

end

/-! ## Basic facts about the byte-level helpers and the encoder -/

theorem length_be4 (n : Nat) : (be4 n).length = 4 := rfl

theorem beVal_be4 (n : Nat) : beVal (be4 n) = n % 4294967296 := by
  simp only [be4, beVal]
  omega

theorem beVal_be4_of_lt {n : Nat} (h : n < 4294967296) : beVal (be4 n) = n := by
  rw [beVal_be4, Nat.mod_eq_of_lt h]

theorem toTwos_lt (i : Int) : toTwos i < 4294967296 := by
  unfold toTwos
  omega

theorem fromTwos_toTwos {i : Int} (h1 : -2147483648 ≤ i) (h2 : i < 2147483648) :
    fromTwos (toTwos i) = i := by
  unfold fromTwos toTwos
  omega

/-- Every arm of encodeValue writes the 4-byte big-endian length of its
payload followed by the payload (the literal lengths 4 and 1 written for the
fixed-width types equal the payload lengths). -/
theorem encodeValue_eq (v : Value) :
    encodeValue v = be4 (payloadV v).length ++ payloadV v := by
  cases v <;> rfl

theorem encode_field_eq (key : List Nat) (v : Value) :
    encode_field (.mk key v) =
      typeCode v :: (be4 key.length ++ (key ++ (be4 (payloadV v).length ++ payloadV v))) := by
  rw [encode_field, encodeValue_eq]

theorem encode_append (key : List Nat) (v : Value) (g : List Nat) :
    encode_field (.mk key v) ++ g =
      typeCode v ::
        (be4 key.length ++ (key ++ (be4 (payloadV v).length ++ (payloadV v ++ g)))) := by
  rw [encode_field_eq]
  simp [List.append_assoc]

theorem length_encode (key : List Nat) (v : Value) :
    (encode_field (.mk key v)).length = 9 + key.length + (payloadV v).length := by
  rw [encode_field_eq]
  simp [length_be4]
  omega

theorem nine_le_length_encode (f : Field) : 9 ≤ (encode_field f).length := by
  cases f with
  | mk key v => rw [length_encode]; omega

theorem encodeFields_eq_join (fs : List Field) :
    encodeFields fs = (fs.map encode_field).flatten := by
  induction fs with
  | nil => rfl
  | cons f fs ih => rw [encodeFields, ih]; simp

theorem take_app_len (a b : List Nat) (n : Nat) (h : a.length = n) : (a ++ b).take n = a := by
  subst h; exact List.take_left a b

theorem drop_app_len (a b : List Nat) (n : Nat) (h : a.length = n) : (a ++ b).drop n = b := by
  subst h; exact List.drop_left a b

/-- The declared key length the decoder reads from the four bytes after the
type code. -/
def keyLenOf (r0 : List Nat) : Nat := beVal (r0.take 4)

/-- The key bytes the decoder consumes. -/
def keyBytesOf (r0 : List Nat) : List Nat := (r0.drop 4).take (keyLenOf r0)

/-- The tail of the input after the key has been consumed. -/
def r2Of (r0 : List Nat) : List Nat := (r0.drop 4).drop (keyLenOf r0)

/-- The declared value length the decoder reads after the key. -/
def valLenOf (r0 : List Nat) : Nat := beVal ((r2Of r0).take 4)

/-- The value payload bytes the decoder consumes. -/
def valBytesOf (r0 : List Nat) : List Nat := ((r2Of r0).drop 4).take (valLenOf r0)

/-- One unfolding of the decoder on a nonempty input, phrased with the named
header quantities. -/
theorem decodeFuel_succ_eq (m t : Nat) (r0 : List Nat) :
    decodeFuel (m + 1) (t :: r0) =
      if 4 ≤ r0.length then
        if keyLenOf r0 ≤ (r0.drop 4).length then
          if validUtf8 (keyBytesOf r0) then
            if 4 ≤ (r2Of r0).length then
              if valLenOf r0 ≤ ((r2Of r0).drop 4).length then
                if t = 1 then
                  if (valBytesOf r0).length = 4 then
                    some (.ok (.mk (keyBytesOf r0)
                      (.Int32 (fromTwos (beVal (valBytesOf r0))))))
                  else some .panic
                else if t = 2 then
                  if (valBytesOf r0).length = 4 then
                    some (.ok (.mk (keyBytesOf r0) (.Float32 (beVal (valBytesOf r0)))))
                  else some .panic
                else if t = 3 then
                  match valBytesOf r0 with
                  | [] => some .panic
                  | b :: _ => some (.ok (.mk (keyBytesOf r0) (.Bool (b != 0))))
                else if t = 4 then
                  if validUtf8 (valBytesOf r0) then
                    some (.ok (.mk (keyBytesOf r0) (.String (valBytesOf r0))))
                  else some .fail
                else if t = 5 then
                  some (.ok (.mk (keyBytesOf r0) (.Bytes (valBytesOf r0))))
                else if t = 6 then
                  match decodeLoopFuel m (valBytesOf r0) with
                  | none => none
                  | some .panic => some .panic
                  | some (.fields fs) => some (.ok (.mk (keyBytesOf r0) (.Message fs)))
                else some .fail
              else some .fail
            else some .fail
          else some .fail
        else some .fail
      else some .fail := rfl

/-- One unfolding of the Message loop on a nonempty slice. -/
theorem decodeLoopFuel_succ_eq (m a : Nat) (as : List Nat) :
    decodeLoopFuel (m + 1) (a :: as) =
      match decodeFuel m (a :: as) with
      | none => none
      | some .fail => some (.fields [])
      | some .panic => some .panic
      | some (.ok f) =>
        if (encode_field f).length ≤ (a :: as).length then
          match decodeLoopFuel m ((a :: as).drop (encode_field f).length) with
          | none => none
          | some .panic => some .panic
          | some (.fields fs) => some (.fields (f :: fs))
        else some .panic := rfl


theorem valBytesOf_length (r0 : List Nat) : (valBytesOf r0).length ≤ r0.length - 8 := by
  simp only [valBytesOf, valLenOf, r2Of, keyLenOf, List.length_take, List.length_drop]
  omega

theorem decodeFuel_short (n t : Nat) (r0 : List Nat) (h : r0.length < 8) :
    decodeFuel (n + 1) (t :: r0) = some .fail := by
  rw [decodeFuel_succ_eq]
  have h2 : ¬ (4 ≤ (r2Of r0).length) := by
    simp only [r2Of, List.length_drop]
    omega
  split_ifs <;> rfl

theorem decodeFuel_succ_congr (m m' t : Nat) (r0 : List Nat)
    (h : decodeLoopFuel m (valBytesOf r0) = decodeLoopFuel m' (valBytesOf r0)) :
    decodeFuel (m + 1) (t :: r0) = decodeFuel (m' + 1) (t :: r0) := by
  rw [decodeFuel_succ_eq, decodeFuel_succ_eq, h]
theorem decodeFuel_succ_ne_none (m t : Nat) (r0 : List Nat)
    (h : decodeLoopFuel m (valBytesOf r0) ≠ none) :
    decodeFuel (m + 1) (t :: r0) ≠ none := by
  rw [decodeFuel_succ_eq]
  obtain ⟨r, hr⟩ := Option.ne_none_iff_exists'.mp h
  by_cases c1 : 4 ≤ r0.length
  · rw [if_pos c1]
    by_cases c2 : keyLenOf r0 ≤ (r0.drop 4).length
    · rw [if_pos c2]
      by_cases c3 : validUtf8 (keyBytesOf r0) = true
      · rw [if_pos c3]
        by_cases c4 : 4 ≤ (r2Of r0).length
        · rw [if_pos c4]
          by_cases c5 : valLenOf r0 ≤ ((r2Of r0).drop 4).length
          · rw [if_pos c5]
            by_cases t1 : t = 1
            · rw [if_pos t1]
              by_cases l4 : (valBytesOf r0).length = 4
              · rw [if_pos l4]; simp
              · rw [if_neg l4]; simp
            · rw [if_neg t1]
              by_cases t2 : t = 2
              · rw [if_pos t2]
                by_cases l4 : (valBytesOf r0).length = 4
                · rw [if_pos l4]; simp
                · rw [if_neg l4]; simp
              · rw [if_neg t2]
                by_cases t3 : t = 3
                · rw [if_pos t3]
                  cases hv : valBytesOf r0 <;> simp
                · rw [if_neg t3]
                  by_cases t4 : t = 4
                  · rw [if_pos t4]
                    by_cases u4 : validUtf8 (valBytesOf r0) = true
                    · rw [if_pos u4]; simp
                    · rw [if_neg u4]; simp
                  · rw [if_neg t4]
                    by_cases t5 : t = 5
                    · rw [if_pos t5]; simp
                    · rw [if_neg t5]
                      by_cases t6 : t = 6
                      · rw [if_pos t6, hr]
                        cases r <;> simp
                      · rw [if_neg t6]; simp
          · rw [if_neg c5]; simp
        · rw [if_neg c4]; simp
      · rw [if_neg c3]; simp
    · rw [if_neg c2]; simp
  · rw [if_neg c1]; simp


theorem decode_stable : ∀ n,
    (∀ n' d, d.length < n → d.length < n' →
        decodeFuel n d = decodeFuel n' d ∧ decodeFuel n d ≠ none)
  ∧ (∀ n' s, s.length + 1 < n → s.length + 1 < n' →
        decodeLoopFuel n s = decodeLoopFuel n' s ∧ decodeLoopFuel n s ≠ none) := by
  intro n
  induction n with
  | zero =>
    exact ⟨fun n' d h _ => absurd h (by omega), fun n' s h _ => absurd h (by omega)⟩
  | succ m ih =>
    obtain ⟨ihD, ihL⟩ := ih
    constructor
    · intro n' d hd hd'
      obtain ⟨m', rfl⟩ : ∃ m', n' = m' + 1 := ⟨n' - 1, by omega⟩
      cases d with
      | nil => exact ⟨rfl, by simp [decodeFuel]⟩
      | cons t r0 =>
        by_cases h8 : r0.length < 8
        · rw [decodeFuel_short m t r0 h8, decodeFuel_short m' t r0 h8]
          exact ⟨rfl, by simp⟩
        · have hvb := valBytesOf_length r0
          simp only [List.length_cons] at hd hd'
          have hb : (valBytesOf r0).length + 1 < m := by omega
          have hb' : (valBytesOf r0).length + 1 < m' := by omega
          obtain ⟨hEq, hNN⟩ := ihL m' (valBytesOf r0) hb hb'
          exact ⟨decodeFuel_succ_congr m m' t r0 hEq, decodeFuel_succ_ne_none m t r0 hNN⟩
    · intro n' s hs hs'
      obtain ⟨m', rfl⟩ : ∃ m', n' = m' + 1 := ⟨n' - 1, by omega⟩
      cases s with
      | nil => exact ⟨rfl, by simp [decodeLoopFuel]⟩
      | cons a as =>
        rw [decodeLoopFuel_succ_eq, decodeLoopFuel_succ_eq]
        simp only [List.length_cons] at hs hs'
        obtain ⟨hEq, hNN⟩ := ihD m' (a :: as) (by simp; omega) (by simp; omega)
        rw [hEq]
        rw [hEq] at hNN
        obtain ⟨r, hr⟩ := Option.ne_none_iff_exists'.mp hNN
        rw [hr]
        cases r with
        | fail => exact ⟨rfl, by simp⟩
        | panic => exact ⟨rfl, by simp⟩
        | ok f =>
          simp only []
          by_cases hle : (encode_field f).length ≤ (a :: as).length
          · simp only [if_pos hle]
            have h9 := nine_le_length_encode f
            simp only [List.length_cons] at hle
            obtain ⟨hEq2, hNN2⟩ := ihL m' ((a :: as).drop (encode_field f).length)
              (by simp only [List.length_drop, List.length_cons]; omega)
              (by simp only [List.length_drop, List.length_cons]; omega)
            rw [hEq2]
            rw [hEq2] at hNN2
            refine ⟨rfl, ?_⟩
            obtain ⟨r2, hr2⟩ := Option.ne_none_iff_exists'.mp hNN2
            rw [hr2]
            cases r2 <;> simp
          · simp only [if_neg hle]
            simp


/-- Stability across fuels, specialized: any fuel above the input length
computes the canonical outcome decode_field. -/
theorem decodeFuel_eq_decode_field (d : List Nat) (n : Nat) (h : d.length < n) :
    decodeFuel n d = some (decode_field d) := by
  have h1 := ((decode_stable n).1 (d.length + 1) d h (by omega)).1
  have h2 := ((decode_stable (d.length + 1)).1 (d.length + 1) d (by omega) (by omega)).2
  obtain ⟨r, hr⟩ := Option.ne_none_iff_exists'.mp h2
  unfold decode_field
  rw [h1, hr]
  rfl


theorem decodeFuel_header (m t : Nat) (key P g : List Nat)
    (hk : validUtf8 key = true) (hkl : key.length < 4294967296)
    (hpl : P.length < 4294967296) :
    decodeFuel (m + 1) (t :: (be4 key.length ++ (key ++ (be4 P.length ++ (P ++ g))))) =
      if t = 1 then
        if P.length = 4 then some (.ok (.mk key (.Int32 (fromTwos (beVal P))))) else some .panic
      else if t = 2 then
        if P.length = 4 then some (.ok (.mk key (.Float32 (beVal P)))) else some .panic
      else if t = 3 then
        match P with
        | [] => some .panic
        | b :: _ => some (.ok (.mk key (.Bool (b != 0))))
      else if t = 4 then
        if validUtf8 P then some (.ok (.mk key (.String P))) else some .fail
      else if t = 5 then some (.ok (.mk key (.Bytes P)))
      else if t = 6 then
        match decodeLoopFuel m P with
        | none => none
        | some .panic => some .panic
        | some (.fields fs) => some (.ok (.mk key (.Message fs)))
      else some .fail := by
  simp only [decodeFuel]
  rw [take_app_len _ _ 4 (length_be4 _), drop_app_len _ _ 4 (length_be4 _)]
  rw [beVal_be4_of_lt hkl]
  rw [take_app_len key _ key.length rfl, drop_app_len key _ key.length rfl]
  rw [take_app_len _ _ 4 (length_be4 _), drop_app_len _ _ 4 (length_be4 _)]
  rw [beVal_be4_of_lt hpl]
  rw [take_app_len P g P.length rfl]
  rw [if_pos (by simp [length_be4]; try omega)]
  rw [if_pos (by simp [length_be4]; try omega)]
  rw [if_pos hk]
  rw [if_pos (by simp [length_be4]; try omega)]
  rw [if_pos (by simp [length_be4]; try omega)]

theorem payloadV_length_lt {v : Value} (hv : Value.wf v = true) :
    (payloadV v).length < 4294967296 := by
  cases v <;> simp_all [payloadV, Value.wf, length_be4]

theorem decodeLoopFuel_cons (m : Nat) (s : List Nat) (hs : s ≠ []) :
    decodeLoopFuel (m + 1) s =
      match decodeFuel m s with
      | none => none
      | some .fail => some (.fields [])
      | some .panic => some .panic
      | some (.ok f) =>
        if (encode_field f).length ≤ s.length then
          match decodeLoopFuel m (s.drop (encode_field f).length) with
          | none => none
          | some .panic => some .panic
          | some (.fields fs) => some (.fields (f :: fs))
        else some .panic := by
  cases s with
  | nil => exact absurd rfl hs
  | cons a as => exact decodeLoopFuel_succ_eq m a as

theorem rt_main : ∀ n,
    (∀ f g, Field.wf f = true → (encode_field f).length < n →
        decodeFuel n (encode_field f ++ g) = some (.ok f))
  ∧ (∀ fs, wfFields fs = true → (encodeFields fs).length + 1 < n →
        decodeLoopFuel n (encodeFields fs) = some (.fields fs)) := by
  intro n
  induction n with
  | zero =>
    exact ⟨fun f g _ h => absurd h (by omega), fun fs _ h => absurd h (by omega)⟩
  | succ m ih =>
    obtain ⟨ihD, ihL⟩ := ih
    constructor
    · intro f g hwf hlen
      cases f with
      | mk key v =>
        rw [length_encode] at hlen
        simp only [Field.wf, Bool.and_eq_true, decide_eq_true_eq] at hwf
        obtain ⟨⟨hku, hkl⟩, hv⟩ := hwf
        rw [encode_append]
        rw [decodeFuel_header m (typeCode v) key (payloadV v) g hku hkl (payloadV_length_lt hv)]
        cases v with
        | Int32 i =>
          simp only [Value.wf, Bool.and_eq_true, decide_eq_true_eq] at hv
          simp [typeCode, payloadV, length_be4, beVal_be4_of_lt (toTwos_lt i),
            fromTwos_toTwos hv.1 hv.2]
        | Float32 bits =>
          simp only [Value.wf, decide_eq_true_eq] at hv
          simp [typeCode, payloadV, length_be4, beVal_be4_of_lt hv]
        | Bool b =>
          cases b <;> simp [typeCode, payloadV]
        | String s =>
          simp only [Value.wf, Bool.and_eq_true, decide_eq_true_eq] at hv
          simp [typeCode, payloadV, hv.1]
        | Bytes bs =>
          simp [typeCode, payloadV]
        | Message fs =>
          simp only [Value.wf, Bool.and_eq_true, decide_eq_true_eq] at hv
          simp only [payloadV] at hlen ⊢
          rw [ihL fs hv.1 (by omega)]
          simp [typeCode]
    · intro fs hwf hlen
      cases fs with
      | nil => rfl
      | cons f fs' =>
        rw [encodeFields] at hlen ⊢
        simp only [wfFields, Bool.and_eq_true] at hwf
        obtain ⟨hwf1, hwf2⟩ := hwf
        simp only [List.length_append] at hlen
        have h9 := nine_le_length_encode f
        have hD := ihD f (encodeFields fs') hwf1 (by omega)
        have hL := ihL fs' hwf2 (by omega)
        rw [decodeLoopFuel_cons m _ (by
          intro hnil
          have := congrArg List.length hnil
          simp only [List.length_append, List.length_nil] at this
          omega)]
        rw [hD]
        simp only []
        rw [if_pos (by simp only [List.length_append]; omega)]
        rw [drop_app_len (encode_field f) (encodeFields fs') (encode_field f).length rfl]
        rw [hL]


theorem decode_take_fail (n t : Nat) (key P : List Nat) (p : Nat)
    (hk : validUtf8 key = true) (hkl : key.length < 4294967296)
    (hpl : P.length < 4294967296)
    (hp : p < 9 + key.length + P.length) :
    decodeFuel (n + 1)
      ((t :: (be4 key.length ++ (key ++ (be4 P.length ++ P)))).take p) = some .fail := by
  cases p with
  | zero => rfl
  | succ q =>
    rw [List.take_succ_cons, decodeFuel_succ_eq]
    have hXlen : (be4 key.length ++ (key ++ (be4 P.length ++ P))).length
        = 8 + key.length + P.length := by
      simp only [List.length_append, length_be4]
      omega
    have htq : ((be4 key.length ++ (key ++ (be4 P.length ++ P))).take q).length
        = min q (8 + key.length + P.length) := by
      rw [List.length_take, hXlen]
    by_cases hq4 : 4 ≤ q
    case neg => rw [if_neg (by rw [htq]; omega)]
    case pos =>
    rw [if_pos (by rw [htq]; omega)]
    have hA : keyLenOf ((be4 key.length ++ (key ++ (be4 P.length ++ P))).take q)
        = key.length := by
      unfold keyLenOf
      rw [List.take_take, Nat.min_eq_left hq4, take_app_len _ _ 4 (length_be4 _),
        beVal_be4_of_lt hkl]
    have hB : ((be4 key.length ++ (key ++ (be4 P.length ++ P))).take q).drop 4
        = (key ++ (be4 P.length ++ P)).take (q - 4) := by
      rw [List.drop_take, drop_app_len _ _ 4 (length_be4 _)]
    rw [hA, hB]
    by_cases hqk : q < 4 + key.length
    case pos =>
      rw [if_neg (by simp only [List.length_take, List.length_append]; omega)]
    case neg =>
    rw [if_pos (by simp only [List.length_take, List.length_append]; omega)]
    have hKB : keyBytesOf ((be4 key.length ++ (key ++ (be4 P.length ++ P))).take q)
        = key := by
      unfold keyBytesOf
      rw [hA, hB, List.take_take, Nat.min_eq_left (by omega : key.length ≤ q - 4)]
      exact take_app_len key _ key.length rfl
    rw [hKB, if_pos hk]
    have hr2 : r2Of ((be4 key.length ++ (key ++ (be4 P.length ++ P))).take q)
        = (be4 P.length ++ P).take (q - 4 - key.length) := by
      unfold r2Of
      rw [hA, hB, List.drop_take, drop_app_len key _ key.length rfl]
    rw [hr2]
    by_cases hq8 : q < 8 + key.length
    case pos =>
      rw [if_neg (by
        simp only [List.length_take, List.length_append, length_be4]
        omega)]
    case neg =>
    rw [if_pos (by
      simp only [List.length_take, List.length_append, length_be4]
      omega)]
    have hVL : valLenOf ((be4 key.length ++ (key ++ (be4 P.length ++ P))).take q)
        = P.length := by
      unfold valLenOf
      rw [hr2, List.take_take, Nat.min_eq_left (by omega : 4 ≤ q - 4 - key.length),
        take_app_len _ _ 4 (length_be4 _), beVal_be4_of_lt hpl]
    rw [hVL]
    rw [if_neg (by
      rw [List.drop_take, drop_app_len _ _ 4 (length_be4 _), List.length_take]
      omega)]


/-- Bridge: a decodeFuel computation at sufficient fuel determines decode_field. -/
theorem decode_field_eq_of_fuel {d : List Nat} {r : DOut} (n : Nat) (h : d.length < n)
    (he : decodeFuel n d = some r) : decode_field d = r := by
  have hc := decodeFuel_eq_decode_field d n h
  rw [he] at hc
  exact (Option.some_inj.mp hc).symm

/-- The Message loop on a payload made of well-formed encoded children followed
by a failing suffix collects exactly the children. -/
theorem loop_trunc : ∀ (fs : List Field) (m : Nat) (suffix : List Nat),
    wfFields fs = true → decode_field suffix = .fail →
    (encodeFields fs).length + suffix.length + 1 < m + 1 →
    decodeLoopFuel (m + 1) (encodeFields fs ++ suffix) = some (.fields fs) := by
  intro fs
  induction fs with
  | nil =>
    intro m suffix _ hf hb
    rw [encodeFields, List.nil_append]
    cases suffix with
    | nil => rfl
    | cons a as =>
      rw [decodeLoopFuel_succ_eq]
      rw [decodeFuel_eq_decode_field (a :: as) m
        (by simp only [encodeFields, List.length_nil, List.length_cons] at hb ⊢; omega)]
      rw [hf]
  | cons f fs' ih =>
    intro m suffix hwf hf hb
    simp only [wfFields, Bool.and_eq_true] at hwf
    obtain ⟨hwf1, hwf2⟩ := hwf
    rw [encodeFields, List.append_assoc]
    have h9 := nine_le_length_encode f
    simp only [encodeFields, List.length_append] at hb
    rw [decodeLoopFuel_cons m _ (by
      intro hnil
      have := congrArg List.length hnil
      simp only [List.length_append, List.length_nil] at this
      omega)]
    rw [(rt_main m).1 f (encodeFields fs' ++ suffix) hwf1 (by omega)]
    simp only []
    rw [if_pos (by simp only [List.length_append]; omega)]
    rw [drop_app_len (encode_field f) _ (encode_field f).length rfl]
    obtain ⟨m', rfl⟩ : ∃ m', m = m' + 1 := ⟨m - 1, by omega⟩
    rw [ih m' suffix hwf2 hf (by omega)]


/-- A record whose type code is outside 1..6 decodes to None at any fuel,
whatever the rest of the record looks like. -/
theorem decode_unknown_type (n t : Nat) (r0 : List Nat) (ht : ¬ (1 ≤ t ∧ t ≤ 6)) :
    decodeFuel (n + 1) (t :: r0) = some .fail := by
  rw [decodeFuel_succ_eq]
  have t1 : t ≠ 1 := by omega
  have t2 : t ≠ 2 := by omega
  have t3 : t ≠ 3 := by omega
  have t4 : t ≠ 4 := by omega
  have t5 : t ≠ 5 := by omega
  have t6 : t ≠ 6 := by omega
  simp only [if_neg t1, if_neg t2, if_neg t3, if_neg t4, if_neg t5, if_neg t6]
  split_ifs <;> rfl

/-- A record whose declared key bytes are present but not valid UTF-8 decodes
to None at any fuel. -/
theorem decode_bad_key (n t : Nat) (kb rest : List Nat) (hkl : kb.length < 4294967296)
    (hk : validUtf8 kb = false) :
    decodeFuel (n + 1) (t :: (be4 kb.length ++ (kb ++ rest))) = some .fail := by
  rw [decodeFuel_succ_eq]
  rw [if_pos (by simp only [List.length_append, length_be4]; omega)]
  have hA : keyLenOf (be4 kb.length ++ (kb ++ rest)) = kb.length := by
    unfold keyLenOf
    rw [take_app_len _ _ 4 (length_be4 _), beVal_be4_of_lt hkl]
  have hB : (be4 kb.length ++ (kb ++ rest)).drop 4 = kb ++ rest :=
    drop_app_len _ _ 4 (length_be4 _)
  rw [hA, hB]
  rw [if_pos (by simp only [List.length_append]; omega)]
  have hKB : keyBytesOf (be4 kb.length ++ (kb ++ rest)) = kb := by
    unfold keyBytesOf
    rw [hA, hB]
    exact take_app_len kb rest kb.length rfl
  rw [hKB, if_neg (by rw [hk]; exact Bool.false_ne_true)]

/-- A String record whose payload bytes are not valid UTF-8 decodes to None. -/
theorem decode_bad_string (n : Nat) (key P g : List Nat)
    (hk : validUtf8 key = true) (hkl : key.length < 4294967296)
    (hpl : P.length < 4294967296) (hP : validUtf8 P = false) :
    decodeFuel (n + 1) (4 :: (be4 key.length ++ (key ++ (be4 P.length ++ (P ++ g)))))
      = some .fail := by
  rw [decodeFuel_header n 4 key P g hk hkl hpl]
  simp [hP]


/-! ## The claims -/

/-- C1: for every well-formed Field f (valid UTF-8 key and String payloads,
all string, byte and message payload lengths below 2^32, finite nesting),
decode_field applied to encode_field f returns the parsed field f. -/
theorem C1_round_trip (f : Field) (hwf : Field.wf f = true) :
    decode_field (encode_field f) = .ok f := by
  apply decode_field_eq_of_fuel ((encode_field f).length + 1) (by omega)
  have h := (rt_main ((encode_field f).length + 1)).1 f [] hwf (by omega)
  rw [List.append_nil] at h
  exact h

theorem C1_round_trip_witness :
    Field.wf (.mk [] (.Message [.mk [120] (.Bool true)])) = true
  ∧ decode_field (encode_field (.mk [] (.Message [.mk [120] (.Bool true)])))
      = .ok (.mk [] (.Message [.mk [120] (.Bool true)])) :=
  ⟨by decide, C1_round_trip _ (by decide)⟩

/-- C2: the claim says a fixed-width record whose val_len does not match the
expected width makes decode_field report absence; on the code, an Int32 record
with val_len 0 panics in copy_from_slice instead, and a Bool record with
val_len 2 is accepted. This theorem evaluates the decoder at both inputs. -/
theorem C2_fixed_width_panic :
    decode_field [1, 0, 0, 0, 0, 0, 0, 0, 0] = .panic
  ∧ decode_field [3, 0, 0, 0, 0, 0, 0, 0, 2, 1, 1] = .ok (.mk [] (.Bool true)) :=
  ⟨rfl, rfl⟩

/-- C3: a Message record whose payload consists of complete well-formed child
records followed by a suffix on which the sub-decode fails decodes to a
Message holding exactly the children decoded before the failure. -/
theorem C3_message_truncation (key : List Nat) (fs : List Field) (suffix : List Nat)
    (hk : validUtf8 key = true) (hkl : key.length < 4294967296)
    (hwf : wfFields fs = true)
    (hpl : (encodeFields fs ++ suffix).length < 4294967296)
    (hf : decode_field suffix = .fail) :
    decode_field (6 :: (be4 key.length ++ (key ++
        (be4 (encodeFields fs ++ suffix).length ++ (encodeFields fs ++ suffix)))))
      = .ok (.mk key (.Message fs)) := by
  apply decode_field_eq_of_fuel
    ((9 + key.length + (encodeFields fs ++ suffix).length) + 1)
    (by simp only [List.length_cons, List.length_append, length_be4]; omega)
  have hh := decodeFuel_header (9 + key.length + (encodeFields fs ++ suffix).length)
    6 key (encodeFields fs ++ suffix) [] hk hkl hpl
  rw [List.append_nil] at hh
  rw [hh]
  have hstep : 9 + key.length + (encodeFields fs ++ suffix).length
      = (8 + key.length + (encodeFields fs ++ suffix).length) + 1 := by omega
  have hloop : decodeLoopFuel
      (9 + key.length + (encodeFields fs ++ suffix).length)
      (encodeFields fs ++ suffix) = some (.fields fs) := by
    rw [hstep]
    apply loop_trunc fs _ suffix hwf hf
    simp only [List.length_append]
    omega
  rw [hloop]
  simp

theorem C3_message_truncation_witness :
    decode_field (6 :: (be4 ([] : List Nat).length ++ ([] ++
        (be4 (encodeFields [Field.mk [] (.Bool true)] ++ [9]).length ++
          (encodeFields [Field.mk [] (.Bool true)] ++ [9])))))
      = .ok (.mk [] (.Message [Field.mk [] (.Bool true)])) :=
  C3_message_truncation [] [Field.mk [] (.Bool true)] [9]
    (by decide) (by decide) (by decide) (by decide) (by rfl)

/-- C4: every strict prefix of the encoding of a well-formed Field decodes to
None. -/
theorem C4_truncation_fails (f : Field) (p : Nat) (hwf : Field.wf f = true)
    (hp : p < (encode_field f).length) :
    decode_field ((encode_field f).take p) = .fail := by
  cases f with
  | mk key v =>
    simp only [Field.wf, Bool.and_eq_true, decide_eq_true_eq] at hwf
    obtain ⟨⟨hku, hkl⟩, hv⟩ := hwf
    have hpl := payloadV_length_lt hv
    rw [length_encode] at hp
    rw [encode_field_eq]
    apply decode_field_eq_of_fuel (p + 1)
      (Nat.lt_succ_of_le (by rw [List.length_take]; exact Nat.min_le_left _ _))
    exact decode_take_fail p (typeCode v) key (payloadV v) p hku hkl hpl hp

theorem C4_truncation_fails_witness :
    decode_field ((encode_field (.mk [] (.Int32 0))).take 3) = .fail :=
  C4_truncation_fails (.mk [] (.Int32 0)) 3 (by decide) (by decide)

/-- C5: the encoding of a well-formed Field followed by arbitrary trailing
bytes decodes to that same Field, the trailing bytes being ignored. -/
theorem C5_self_delimiting (f : Field) (g : List Nat) (hwf : Field.wf f = true) :
    decode_field (encode_field f ++ g) = .ok f := by
  apply decode_field_eq_of_fuel ((encode_field f ++ g).length + 1) (by omega)
  exact (rt_main _).1 f g hwf (by simp only [List.length_append]; omega)

theorem C5_self_delimiting_witness :
    decode_field (encode_field (.mk [107] (.Bytes [7, 8])) ++ [255, 0])
      = .ok (.mk [107] (.Bytes [7, 8])) :=
  C5_self_delimiting (.mk [107] (.Bytes [7, 8])) [255, 0] (by decide)

/-- C6: the concrete record with key age and value Int32 42 encodes to the
stated 15 bytes and decodes back to the identical field. -/
theorem C6_concrete_int_record :
    encode_field (.mk [97, 103, 101] (.Int32 42))
      = [1, 0, 0, 0, 3, 97, 103, 101, 0, 0, 0, 4, 0, 0, 0, 42]
  ∧ decode_field [1, 0, 0, 0, 3, 97, 103, 101, 0, 0, 0, 4, 0, 0, 0, 42]
      = .ok (.mk [97, 103, 101] (.Int32 42)) :=
  ⟨by decide, rfl⟩

/-- C7: the value payload a Message field encodes is the concatenation of the
encodings of its children in list order, and the val_len bytes written are the
4-byte big-endian representation of the summed length of those child records;
an empty child list yields val_len 0 and an empty payload. -/
theorem C7_message_payload (key : List Nat) (fs : List Field)
    (h : ((fs.map encode_field).flatten).length < 4294967296) :
    encode_field (.mk key (.Message fs))
      = 6 :: (be4 key.length ++ (key ++ (be4 ((fs.map encode_field).flatten).length
          ++ (fs.map encode_field).flatten)))
  ∧ beVal (be4 ((fs.map encode_field).flatten).length)
      = ((fs.map encode_field).flatten).length
  ∧ encode_field (.mk key (.Message []))
      = 6 :: (be4 key.length ++ (key ++ be4 0)) := by
  refine ⟨?_, beVal_be4_of_lt h, ?_⟩
  · rw [encode_field_eq]
    simp [typeCode, payloadV, encodeFields_eq_join]
  · rw [encode_field_eq]
    simp [typeCode, payloadV, encodeFields]

theorem C7_message_payload_witness :
    encode_field (.mk [107] (.Message [Field.mk [] (.Bool false)]))
      = 6 :: (be4 ([107] : List Nat).length ++ ([107] ++
          (be4 (([Field.mk [] (.Bool false)].map encode_field).flatten).length
            ++ ([Field.mk [] (.Bool false)].map encode_field).flatten)))
  ∧ beVal (be4 (([Field.mk [] (.Bool false)].map encode_field).flatten).length)
      = (([Field.mk [] (.Bool false)].map encode_field).flatten).length
  ∧ encode_field (.mk [107] (.Message []))
      = 6 :: (be4 ([107] : List Nat).length ++ ([107] ++ be4 0)) :=
  C7_message_payload [107] [Field.mk [] (.Bool false)] (by decide)

/-- C8: a record whose type code byte is outside 1..6 decodes to None, however
well-formed the rest of the record is. -/
theorem C8_unknown_type_code (t : Nat) (rest : List Nat) (ht : t < 256)
    (hT : ¬ (1 ≤ t ∧ t ≤ 6)) :
    decode_field (t :: rest) = .fail := by
  apply decode_field_eq_of_fuel (rest.length + 2) (by simp only [List.length_cons]; omega)
  exact decode_unknown_type (rest.length + 1) t rest hT

theorem C8_unknown_type_code_witness :
    decode_field (9 :: [0, 0, 0, 0, 0, 0, 0, 1, 7]) = .fail :=
  C8_unknown_type_code 9 [0, 0, 0, 0, 0, 0, 0, 1, 7] (by decide) (by decide)

/-- C9: a record whose declared key bytes are not valid UTF-8 decodes to None,
and a String record (type code 4) whose payload bytes are not valid UTF-8
decodes to None. -/
theorem C9_utf8_validation :
    (∀ (t : Nat) (kb rest : List Nat), kb.length < 4294967296 →
        validUtf8 kb = false →
        decode_field (t :: (be4 kb.length ++ (kb ++ rest))) = .fail)
  ∧ (∀ (key P g : List Nat), validUtf8 key = true → key.length < 4294967296 →
        P.length < 4294967296 → validUtf8 P = false →
        decode_field (4 :: (be4 key.length ++ (key ++ (be4 P.length ++ (P ++ g)))))
          = .fail) := by
  constructor
  · intro t kb rest hkl hk
    apply decode_field_eq_of_fuel (((be4 kb.length ++ (kb ++ rest)).length + 1) + 1)
      (by simp only [List.length_cons]; omega)
    exact decode_bad_key ((be4 kb.length ++ (kb ++ rest)).length + 1) t kb rest hkl hk
  · intro key P g hk hkl hpl hP
    apply decode_field_eq_of_fuel
      (((be4 key.length ++ (key ++ (be4 P.length ++ (P ++ g)))).length + 1) + 1)
      (by simp only [List.length_cons]; omega)
    exact decode_bad_string ((be4 key.length ++ (key ++ (be4 P.length ++ (P ++ g)))).length + 1)
      key P g hk hkl hpl hP

theorem C9_utf8_validation_witness :
    decode_field (4 :: (be4 ([255] : List Nat).length ++ ([255] ++ []))) = .fail
  ∧ decode_field (4 :: (be4 ([] : List Nat).length ++ ([] ++
      (be4 ([255] : List Nat).length ++ ([255] ++ []))))) = .fail :=
  ⟨C9_utf8_validation.1 4 [255] [] (by decide) (by decide),
   C9_utf8_validation.2 [] [255] [] (by decide) (by decide) (by decide) (by decide)⟩

/-- C10: the decoder terminates on every input: any fuel above the input
length yields the same defined outcome (never the out-of-fuel marker), the
recursion being driven by the fact that every encoded field occupies at least
9 bytes, so the Message loop strictly shrinks its slice. -/
theorem C10_termination :
    (∀ f : Field, 9 ≤ (encode_field f).length)
  ∧ (∀ (d : List Nat) (n : Nat), d.length < n → decodeFuel n d = some (decode_field d)) :=
  ⟨nine_le_length_encode, fun d n h => decodeFuel_eq_decode_field d n h⟩

theorem C10_termination_witness :
    9 ≤ (encode_field (.mk [] (.Bool true))).length
  ∧ decodeFuel 1 [] = some (decode_field []) :=
  ⟨C10_termination.1 (.mk [] (.Bool true)), C10_termination.2 [] 1 (by decide)⟩

end CustomCodec
